import Mathlib

/-!
Shallow embedding of the maruel/fortuna Go package (counter.go,
double_hash.go, generator.go, fortuna.go) and proofs about it.

Bytes are modelled as `Nat` values below 256, byte slices as `List Nat`.
The hash handle (`hash.Hash`) is modelled by a `HashSpec`: a pure digest
function together with its block and output sizes; the running hash state
is the list of bytes written since the last reset.  The AES block cipher
is an abstract parameter `ec : key -> block -> block` (Go's
`cipher.Block.Encrypt` on 16-byte blocks).
-/

set_option maxRecDepth 10000

namespace Fortuna

/-! ## counter.go -/

/-- `counter.incr`: add 1 treating the slice as a little-endian big int.
Each byte wraps mod 256 (Go `byte` arithmetic); carry stops at the first
byte that did not wrap.  The Go epilogue that zero-fills on full overflow
is a no-op (every byte already wrapped to zero). -/
def incr : List Nat → List Nat
  | [] => []
  | b :: rest =>
    if (b + 1) % 256 ≠ 0 then (b + 1) % 256 :: rest
    else (b + 1) % 256 :: incr rest

/-- Little-endian value of a byte list. -/
def leVal : List Nat → Nat
  | [] => 0
  | b :: rest => b + 256 * leVal rest

/-- All entries are valid bytes. -/
def validBytes (c : List Nat) : Prop := ∀ b ∈ c, b < 256

instance validBytes.dec (c : List Nat) : Decidable (validBytes c) := by
  unfold validBytes; infer_instance

/-! ## double_hash.go -/

/-- A hash handle: Go's `hash.Hash` reduced to its pure content.  `digest`
maps the bytes written since the last reset to the sum. -/
structure HashSpec where
  blockSize : Nat
  size : Nat
  digest : List Nat → List Nat

/-- `var zeros = [256]byte{}` -/
def zeros : List Nat := List.replicate 256 0

/-- `hash.Hash.Write`: append to the running buffer. -/
def hWrite (st d : List Nat) : List Nat := st ++ d

/-- `hash.Hash.Reset`: clear the running buffer. -/
def hReset (_ : List Nat) : List Nat := []

/-- `DoubleHash(h, data...)` from double_hash.go: reset, write
`zeros[:b]`, write every segment in order, take the sum; then reset,
write that sum and take the final sum. -/
def DoubleHash (hs : HashSpec) (data : List (List Nat)) : List Nat :=
  let st0 := hReset []
  let st1 := hWrite st0 (zeros.take hs.blockSize)
  let st2 := data.foldl hWrite st1
  let dst := hs.digest st2
  let st3 := hWrite (hReset st2) dst
  hs.digest st3

/-! ## generator.go -/

/-- Errors surfaced by the generator. -/
inductive GenErr where
  | notSeeded
  deriving DecidableEq, Repr

/-- `generator` state. `temp` (scratch) and the stored hash handle are not
state; `seeded` is the Go field tracking whether a write occurred. -/
structure GenState where
  key : List Nat
  counter : List Nat
  maxBytesPerRequest : Nat
  seeded : Bool
  deriving DecidableEq, Repr

/-- `generator.Write`: rekey with `DoubleHash(h, key, data)`, increment the
counter once, mark the generator seeded, return `(len(data), nil)`. -/
def generatorWrite (hs : HashSpec) (g : GenState) (data : List Nat) :
    (Nat × Option GenErr) × GenState :=
  ((data.length, none),
   { g with
     key := DoubleHash hs [g.key, data]
     counter := incr g.counter
     seeded := true })

/-- The full-block loop of `generator.generateBlocks`: encrypt the counter
into the output and increment it, once per 16-byte block. -/
def genBlocksFull (ec : List Nat → List Nat → List Nat) (key : List Nat) :
    Nat → List Nat → List Nat × List Nat
  | 0, ctr => ([], ctr)
  | k + 1, ctr =>
    let b := ec key ctr
    let r := genBlocksFull ec key k (incr ctr)
    (b ++ r.1, r.2)

/-- `generator.generateBlocks` on an `n`-byte output buffer: all full
16-byte blocks in place, then (via the scratch buffer) the prefix of one
more encrypted block for the ragged tail.  Returns the bytes produced and
the updated counter. -/
def genBlocks (ec : List Nat → List Nat → List Nat) (key ctr : List Nat)
    (n : Nat) : List Nat × List Nat :=
  let full := genBlocksFull ec key (n / 16) ctr
  if n % 16 = 0 then full
  else (full.1 ++ (ec key full.2).take (n % 16), incr full.2)

/-- `generator.Read`: fail if never seeded; otherwise cap the request at
`maxBytesPerRequest`, generate that many bytes, then regenerate the key
from the keystream (forward secrecy) and return the bytes with no error. -/
def generatorRead (ec : List Nat → List Nat → List Nat) (g : GenState)
    (r : Nat) : (List Nat × Option GenErr) × GenState :=
  if g.seeded = false then (([], some GenErr.notSeeded), g)
  else
    let n := min r g.maxBytesPerRequest
    let out := genBlocks ec g.key g.counter n
    let rekey := genBlocks ec g.key out.2 g.key.length
    ((out.1, none), { g with key := rekey.1, counter := rekey.2 })

/-- `newGenerator(h, seed)`: all-zero key of the hash output size, all-zero
16-byte counter, request cap `(1 << 15) * h.Size()`; a non-empty seed is
written immediately. -/
def newGenerator (hs : HashSpec) (seed : List Nat) : GenState :=
  let g : GenState :=
    { key := List.replicate hs.size 0
      counter := List.replicate 16 0
      maxBytesPerRequest := 2 ^ 15 * hs.size
      seeded := false }
  if seed.length ≠ 0 then (generatorWrite hs g seed).2 else g

/-- The observable trace of a sequence of reads: each element is the pair
(bytes returned, error) of one `generator.Read` call. -/
def genTrace (ec : List Nat → List Nat → List Nat) (g : GenState) :
    List Nat → List (List Nat × Option GenErr)
  | [] => []
  | r :: rs =>
    let step := generatorRead ec g r
    step.1 :: genTrace ec step.2 rs

/-! ## fortuna.go -/

def numPools : Nat := 32

/-- `minPoolSize = sha256.BlockSize` -/
def minPoolSize : Nat := 64

/-- A `countedHash` entropy pool: the bytes written since the last reset
(its `length` field is `data.length`). -/
structure Pool where
  data : List Nat
  deriving DecidableEq, Repr

/-- Ambient primitives of the accumulator: the pool hash (SHA-256 in Go)
and SHA-1, used to compress oversized events. -/
structure Ctx where
  h : HashSpec
  sha1 : List Nat → List Nat

/-- Accumulator state (`lastReseed` wall-clock bookkeeping is not part of
the data the claims are about and is omitted). -/
structure Acc where
  numReseed : Nat
  nextPool : Nat
  gen : GenState
  pools : List Pool

/-- `accumulator.AddRandomEvent` with synchronous delivery of the framed
buffer: data longer than 32 bytes is replaced by its SHA-1; the 2-byte
header holds the source and the original length as a byte; the buffer is
written to `pools[nextPool]` and `nextPool` advances round-robin. -/
def addRandomEvent (ctx : Ctx) (a : Acc) (source : Nat) (data : List Nat) :
    Acc :=
  let payload := if data.length > 32 then ctx.sha1 data else data
  let buffer := source % 256 :: data.length % 256 :: payload
  { a with
    pools := a.pools.set a.nextPool ⟨(a.pools.getD a.nextPool ⟨[]⟩).data ++ buffer⟩
    nextPool := (a.nextPool + 1) % numPools }

/-- The pool loop of `accumulator.reseed`: starting with `mask = 0`, visit
the pools in order while `numReseed &&& mask == 0`; append each visited
pool's digest to the seed buffer, reset the pool, and grow the mask as
`mask = mask<<1 | 1`. Returns the seed buffer and the updated pools. -/
def reseedAux (ctx : Ctx) (nr : Nat) : Nat → List Pool → List Nat × List Pool
  | _, [] => ([], [])
  | mask, p :: ps =>
    if nr &&& mask = 0 then
      let r := reseedAux ctx nr (mask <<< 1 ||| 1) ps
      (ctx.h.digest p.data ++ r.1, ⟨[]⟩ :: r.2)
    else ([], p :: ps)

/-- `accumulator.reseed`: increment `numReseed`, drain the selected pools
into a seed buffer, and feed the buffer to the generator in one write. -/
def reseed (ctx : Ctx) (a : Acc) : Acc :=
  let nr := a.numReseed + 1
  let r := reseedAux ctx nr 0 a.pools
  { a with
    numReseed := nr
    pools := r.2
    gen := (generatorWrite ctx.h a.gen r.1).2 }

/-- Errors surfaced by `NewFortuna`. -/
inductive FortunaErr where
  | seedTooShort
  deriving DecidableEq, Repr

/-- The 64-byte `pool0` block of `NewFortuna`: a zero array whose bytes
16..64 receive `copy(pool0[16:], seed)` (up to 48 seed bytes, the rest
staying zero). -/
def pool0Block (seed : List Nat) : List Nat :=
  List.replicate 16 0 ++ (seed.take 48 ++ List.replicate 48 0).take 48

/-- The index sequence of a Go `for` loop: `idxFrom i k = [i, ..., i+k-1]`. -/
def idxFrom : Nat → Nat → List Nat
  | _, 0 => []
  | i, k + 1 => i :: idxFrom (i + 1) k

/-- The seed-distribution loop of `NewFortuna`: for each pool index `i`
(running 1..31), `remaining := numPools - i`,
`perPool := (len(seed) + remaining - 1) / remaining`; submit
`(i, seed[:perPool])` and continue with `seed[perPool:]`. -/
def distributeSeed : List Nat → List Nat → List (Nat × List Nat)
  | _, [] => []
  | seed, i :: rest =>
    let remaining := numPools - i
    let perPool := (seed.length + remaining - 1) / remaining
    (i, seed.take perPool) :: distributeSeed (seed.drop perPool) rest

/-- The `(source, data)` pairs `NewFortuna` submits through
`AddRandomEvent`, in order: the pool0 block for source 0, then the
distribution loop applied to `seed[minPoolSize+16:]`. -/
def newFortunaEvents (seed : List Nat) : List (Nat × List Nat) :=
  (0, pool0Block seed) :: distributeSeed (seed.drop (minPoolSize + 16)) (idxFrom 1 31)

/-- `NewFortuna(seed)`: reject seeds shorter than `2*minPoolSize`;
otherwise build a fresh accumulator (unseeded generator, 32 empty pools),
deliver the initialization events, and perform the initial reseed. -/
def NewFortuna (ctx : Ctx) (seed : List Nat) : Except FortunaErr Acc :=
  if seed.length < 2 * minPoolSize then Except.error FortunaErr.seedTooShort
  else
    let a : Acc :=
      { numReseed := 0
        nextPool := 0
        gen := newGenerator ctx.h []
        pools := List.replicate numPools ⟨[]⟩ }
    let a := (newFortunaEvents seed).foldl
      (fun acc e => addRandomEvent ctx acc e.1 e.2) a
    Except.ok (reseed ctx a)

/-- Whether an `Except` is a success. -/
def exceptOk {ε α : Type} : Except ε α → Bool
  | Except.ok _ => true
  | Except.error _ => false

/-! ## Definitions taken from the specification's words (for comparison
with the source-derived ones). -/

/-- Ceiling division, written the way the spec says it. -/
def ceilDivSpec (a b : Nat) : Nat :=
  if a % b = 0 then a / b else a / b + 1

/-- Modelled from the spec: the distribution rule of the claim, "for each
remaining pool index i, allocate ceil(remaining_bytes / remaining_pools)
bytes and submit as an event with source = i". -/
def claimDistribute : List Nat → Nat → Nat → List (Nat × List Nat)
  | _, _, 0 => []
  | rem, i, k + 1 =>
    let alloc := ceilDivSpec rem.length (numPools - i)
    (i, rem.take alloc) :: claimDistribute (rem.drop alloc) (i + 1) k

/-- Modelled from the spec: the initialization events exactly as the claim
states them — the pool0 block (16 zero bytes, then the first 48 seed
bytes) with source 0, then the distribution of the seed bytes from
position 64 onward over pools 1..31. -/
def claimedInitEvents (seed : List Nat) : List (Nat × List Nat) :=
  (0, List.replicate 16 0 ++ seed.take 48) :: claimDistribute (seed.drop 64) 1 31

/-- The claim's event list amended only in the advance distance: the
distribution starts at byte 80 (`minPoolSize + 16`), as the code does. -/
def claimedInitEventsA (seed : List Nat) : List (Nat × List Nat) :=
  (0, List.replicate 16 0 ++ seed.take 48) :: claimDistribute (seed.drop 80) 1 31

/-! ## Concrete instances used by witnesses -/

/-- A small concrete hash spec (block size 64, output size 32). -/
def hs0 : HashSpec :=
  ⟨64, 32, fun l => List.replicate 32 (l.length % 256)⟩

/-- A concrete 16-byte block cipher stand-in. -/
def ec0 : List Nat → List Nat → List Nat :=
  fun key ctr => List.replicate 16 ((key.length + leVal ctr) % 256)

/-- A concrete accumulator context. -/
def ctx0 : Ctx := ⟨hs0, fun l => List.replicate 20 (l.length % 256)⟩

/-- A concrete seeded generator state with a 32-byte key. -/
def gW : GenState :=
  { key := List.replicate 32 1
    counter := List.replicate 16 0
    maxBytesPerRequest := 2 ^ 20
    seeded := true }

/-- A concrete fresh accumulator with 32 empty pools. -/
def acc0 : Acc :=
  { numReseed := 0
    nextPool := 0
    gen := newGenerator hs0 []
    pools := List.replicate 32 ⟨[]⟩ }

/-! ## Lemmas about the little-endian counter -/

theorem incr_length (c : List Nat) : (incr c).length = c.length := by
  induction c with
  | nil => rfl
  | cons b rest ih =>
    unfold incr
    by_cases h : (b + 1) % 256 ≠ 0 <;> simp [h, ih]

theorem incr_valid (c : List Nat) (hv : validBytes c) : validBytes (incr c) := by
  induction c with
  | nil => exact hv
  | cons b rest ih =>
    rw [validBytes, incr]
    rcases (List.forall_mem_cons).1 hv with ⟨_, hrest⟩
    by_cases h : (b + 1) % 256 ≠ 0 <;>
      simp only [h, if_true, if_false, ite_not, List.forall_mem_cons] <;>
      refine ⟨Nat.mod_lt _ (by norm_num), ?_⟩
    · exact hrest
    · exact ih hrest

theorem leVal_lt (c : List Nat) (hv : validBytes c) :
    leVal c < 2 ^ (8 * c.length) := by
  induction c with
  | nil => simp [leVal]
  | cons b rest ih =>
    rcases (List.forall_mem_cons).1 hv with ⟨hb, hrest⟩
    have h1 := ih hrest
    have h2 : 2 ^ (8 * (b :: rest).length) = 256 * 2 ^ (8 * rest.length) := by
      simp [List.length_cons, Nat.mul_add, Nat.pow_add, Nat.mul_comm]
      ring
    rw [h2, leVal]
    omega

theorem leVal_incr (c : List Nat) (hv : validBytes c) :
    leVal (incr c) = (leVal c + 1) % 2 ^ (8 * c.length) := by
  induction c with
  | nil => simp [incr, leVal]
  | cons b rest ih =>
    rcases (List.forall_mem_cons).1 hv with ⟨hb, hrest⟩
    have hrlt := leVal_lt rest hrest
    have h2 : 2 ^ (8 * (b :: rest).length) = 256 * 2 ^ (8 * rest.length) := by
      simp [List.length_cons, Nat.mul_add, Nat.pow_add, Nat.mul_comm]
      ring
    by_cases h : (b + 1) % 256 ≠ 0
    · have hlt : b + 1 < 256 := by omega
      have hmod : (b + 1) % 256 = b + 1 := Nat.mod_eq_of_lt hlt
      rw [incr, if_pos h, leVal, leVal, hmod, h2,
        Nat.mod_eq_of_lt (by omega)]
      omega
    · push_neg at h
      have hb255 : b = 255 := by omega
      subst hb255
      have hstep : incr (255 :: rest) = 0 :: incr rest := by
        simp [incr]
      rw [hstep, h2]
      simp only [leVal]
      rw [ih hrest]
      have he : 255 + 256 * leVal rest + 1 = 256 * (leVal rest + 1) := by ring
      rw [he, Nat.mul_mod_mul_left]
      omega

/-- C8: `incr` adds 1 to the counter read as a little-endian integer,
reducing the result mod 2^128 on a 16-byte counter; the all-0xFF counter
wraps to all zeros, and the short concrete vectors behave as listed. -/
theorem incr_mod :
    (∀ c : List Nat, validBytes c → c.length = 16 →
        leVal (incr c) = (leVal c + 1) % 2 ^ 128) ∧
    incr (List.replicate 16 255) = List.replicate 16 0 ∧
    incr [0] = [1] ∧ incr [255] = [0] ∧ incr [255, 0] = [0, 1] ∧
    incr [255, 255] = [0, 0] ∧ incr [255, 255, 0] = [0, 0, 1] := by
  refine ⟨fun c hv hl => ?_, by decide, by decide, by decide, by decide,
    by decide, by decide⟩
  have := leVal_incr c hv
  rwa [hl] at this

/-- Witness for C8 at the all-zero 16-byte counter. -/
theorem incr_mod_witness :
    leVal (incr (List.replicate 16 0)) =
      (leVal (List.replicate 16 0) + 1) % 2 ^ 128 :=
  incr_mod.1 (List.replicate 16 0) (by decide) (by decide)

/-! ## Double hash -/

theorem foldl_hWrite (data : List (List Nat)) :
    ∀ st : List Nat, data.foldl hWrite st = st ++ data.flatten := by
  induction data with
  | nil => intro st; simp
  | cons d ds ih =>
    intro st
    simp [List.foldl_cons, hWrite, ih (st ++ d)]

/-- C6: `DoubleHash` computes H(H(0^b ++ m)) where b is the block length
of the hash and m the concatenation of the input segments, via the exact
reset/write/sum sequence of the source. -/
theorem DoubleHash_spec (hs : HashSpec) (data : List (List Nat))
    (hb : hs.blockSize ≤ 256) :
    DoubleHash hs data =
      hs.digest (hs.digest (List.replicate hs.blockSize 0 ++ data.flatten)) := by
  have hz : zeros.take hs.blockSize = List.replicate hs.blockSize 0 := by
    rw [zeros, List.take_replicate, Nat.min_eq_left hb]
  simp [DoubleHash, hReset, hWrite, foldl_hWrite, hz]

/-- Witness for C6 at a concrete hash spec and two segments. -/
theorem DoubleHash_spec_witness :
    DoubleHash hs0 [[1, 2], [3]] =
      hs0.digest (hs0.digest
        (List.replicate hs0.blockSize 0 ++ [[1, 2], [3]].flatten)) :=
  DoubleHash_spec hs0 [[1, 2], [3]] (by decide)

/-! ## Generator write, unseeded read, deferred seeding -/

/-- C5: `generator.Write` replaces the key with the double hash of the old
key and the data, increments the counter exactly once (unconditionally),
marks the generator seeded, leaves the request cap alone, and returns the
length of the data with no error. -/
theorem generatorWrite_spec (hs : HashSpec) (g : GenState) (data : List Nat) :
    (generatorWrite hs g data).2.key = DoubleHash hs [g.key, data] ∧
    (generatorWrite hs g data).2.counter = incr g.counter ∧
    (generatorWrite hs g data).2.seeded = true ∧
    (generatorWrite hs g data).2.maxBytesPerRequest = g.maxBytesPerRequest ∧
    (generatorWrite hs g data).1 = (data.length, none) := by
  simp [generatorWrite]

/-- C7: reading from a generator that was never written to fails with
`notSeeded`, yields no bytes and leaves the state untouched. -/
theorem generatorRead_notSeeded (ec : List Nat → List Nat → List Nat)
    (g : GenState) (r : Nat) (h : g.seeded = false) :
    generatorRead ec g r = (([], some GenErr.notSeeded), g) := by
  simp [generatorRead, h]

/-- Witness for C7 on a freshly constructed, unseeded generator. -/
theorem generatorRead_notSeeded_witness :
    generatorRead ec0 (newGenerator hs0 []) 7 =
      (([], some GenErr.notSeeded), newGenerator hs0 []) :=
  generatorRead_notSeeded ec0 (newGenerator hs0 []) 7 (by rfl)

/-- C9: a generator constructed with a non-empty seed produces exactly the
trace of a generator constructed unseeded and written that seed once. -/
theorem seedViaWrite_equiv (hs : HashSpec)
    (ec : List Nat → List Nat → List Nat) (seed : List Nat)
    (rs : List Nat) (h : seed ≠ []) :
    genTrace ec (newGenerator hs seed) rs =
      genTrace ec (generatorWrite hs (newGenerator hs []) seed).2 rs := by
  have hn : seed.length ≠ 0 := fun hc => h (List.length_eq_zero.1 hc)
  have hstate : newGenerator hs seed =
      (generatorWrite hs (newGenerator hs []) seed).2 := by
    simp [newGenerator, hn]
  rw [hstate]

/-- Witness for C9 with a concrete seed and read-size sequence. -/
theorem seedViaWrite_equiv_witness :
    genTrace ec0 (newGenerator hs0 [5]) [3, 2] =
      genTrace ec0 (generatorWrite hs0 (newGenerator hs0 []) [5]).2 [3, 2] :=
  seedViaWrite_equiv hs0 ec0 [5] [3, 2] (by decide)

/-! ## Generator read length -/

theorem genBlocksFull_len (ec : List Nat → List Nat → List Nat)
    (key : List Nat) (hec : ∀ k c, (ec k c).length = 16) :
    ∀ (k : Nat) (ctr : List Nat),
      (genBlocksFull ec key k ctr).1.length = 16 * k := by
  intro k
  induction k with
  | zero => intro ctr; simp [genBlocksFull]
  | succ k ih =>
    intro ctr
    simp [genBlocksFull, hec, ih (incr ctr)]
    ring

theorem genBlocks_len (ec : List Nat → List Nat → List Nat)
    (key ctr : List Nat) (n : Nat) (hec : ∀ k c, (ec k c).length = 16) :
    (genBlocks ec key ctr n).1.length = n := by
  have hfull := genBlocksFull_len ec key hec (n / 16) ctr
  have hdm := Nat.div_add_mod n 16
  by_cases h : n % 16 = 0
  · simp [genBlocks, h, hfull]
    omega
  · simp [genBlocks, h, hfull, hec]
    omega

/-- C3: a read from a constructor-seeded generator returns exactly
`min r maxBytesPerRequest` bytes and no error, where the constructor sets
`maxBytesPerRequest = 2^15 * size(H)`; for a 32-byte hash the cap is
2^20 bytes and for a 16-byte hash it is 2^19 bytes. -/
theorem generatorRead_len :
    (∀ (hs : HashSpec) (ec : List Nat → List Nat → List Nat),
      (∀ k c, (ec k c).length = 16) → ∀ seed : List Nat, seed ≠ [] →
      ∀ r : Nat,
        (generatorRead ec (newGenerator hs seed) r).1.1.length
            = min r (2 ^ 15 * hs.size) ∧
        (generatorRead ec (newGenerator hs seed) r).1.2 = none) ∧
    (∀ (d : List Nat → List Nat) (seed : List Nat),
      (newGenerator ⟨64, 32, d⟩ seed).maxBytesPerRequest = 2 ^ 20) ∧
    (∀ (d : List Nat → List Nat) (seed : List Nat),
      (newGenerator ⟨64, 16, d⟩ seed).maxBytesPerRequest = 2 ^ 19) := by
  refine ⟨fun hs ec hec seed hseed r => ?_, fun d seed => ?_, fun d seed => ?_⟩
  · have hn : seed.length ≠ 0 := fun hc => hseed (List.length_eq_zero.1 hc)
    set g := newGenerator hs seed with hg
    have hseeded : g.seeded = true := by
      simp [hg, newGenerator, hn, generatorWrite]
    have hmax : g.maxBytesPerRequest = 2 ^ 15 * hs.size := by
      simp [hg, newGenerator, hn, generatorWrite]
    constructor
    · simp [generatorRead, hseeded, genBlocks_len ec _ _ _ hec, hmax]
    · simp [generatorRead, hseeded]
  · by_cases hn : seed.length ≠ 0 <;> simp [newGenerator, hn, generatorWrite]
  · by_cases hn : seed.length ≠ 0 <;> simp [newGenerator, hn, generatorWrite]

/-- Witness for C3: a 3-byte request against the 2^20-byte cap. -/
theorem generatorRead_len_witness :
    (generatorRead ec0 (newGenerator hs0 [0]) 3).1.1.length
        = min 3 (2 ^ 15 * hs0.size) ∧
    (generatorRead ec0 (newGenerator hs0 [0]) 3).1.2 = none :=
  generatorRead_len.1 hs0 ec0 (fun k c => by simp [ec0]) [0] (by decide) 3

/-! ## Zero-length reads -/

theorem genBlocksFull_ctr (ec : List Nat → List Nat → List Nat)
    (key : List Nat) :
    ∀ (k : Nat) (ctr : List Nat),
      (genBlocksFull ec key k ctr).2 = incr^[k] ctr := by
  intro k
  induction k with
  | zero => intro ctr; simp [genBlocksFull]
  | succ k ih =>
    intro ctr
    rw [Function.iterate_succ_apply]
    simp [genBlocksFull, ih (incr ctr)]

theorem iterate_incr_length (k : Nat) (c : List Nat) :
    (incr^[k] c).length = c.length := by
  induction k generalizing c with
  | zero => rfl
  | succ k ih => rw [Function.iterate_succ_apply, ih, incr_length]

theorem iterate_incr_valid (k : Nat) (c : List Nat) (hv : validBytes c) :
    validBytes (incr^[k] c) := by
  induction k generalizing c with
  | zero => exact hv
  | succ k ih => rw [Function.iterate_succ_apply]; exact ih _ (incr_valid c hv)

theorem leVal_iterate_incr (k : Nat) (c : List Nat) (hv : validBytes c)
    (hl : c.length = 16) :
    leVal (incr^[k] c) = (leVal c + k) % 2 ^ 128 := by
  induction k generalizing c with
  | zero =>
    have := leVal_lt c hv
    rw [hl] at this
    norm_num at this ⊢
    exact (Nat.mod_eq_of_lt this).symm
  | succ k ih =>
    rw [Function.iterate_succ_apply,
      ih (incr c) (incr_valid c hv) ((incr_length c).trans hl)]
    have h1 := leVal_incr c hv
    rw [hl] at h1
    norm_num at h1 ⊢
    rw [h1, Nat.mod_add_mod]
    ring_nf

/-- C10: a zero-length read from a seeded generator returns zero bytes
with no error yet still rekeys: the key becomes the next `key.length`
bytes of keystream generated under the old key, the counter advances by
`key.length / 16` increments, and the counter value does change. -/
theorem generatorRead_zeroLen (ec : List Nat → List Nat → List Nat)
    (g : GenState) (hseed : g.seeded = true) (hdvd : 16 ∣ g.key.length)
    (hpos : 0 < g.key.length) (hup : g.key.length < 2 ^ 128)
    (hctr : g.counter.length = 16) (hv : validBytes g.counter) :
    generatorRead ec g 0 =
      (([], none),
       { g with
         key := (genBlocksFull ec g.key (g.key.length / 16) g.counter).1
         counter := incr^[g.key.length / 16] g.counter }) ∧
    leVal (incr^[g.key.length / 16] g.counter) ≠ leVal g.counter := by
  have hm : g.key.length % 16 = 0 := by
    obtain ⟨m, hmq⟩ := hdvd
    rw [hmq]
    exact Nat.mul_mod_right 16 m
  constructor
  · have h0 : genBlocks ec g.key g.counter 0 = ([], g.counter) := by
      simp [genBlocks, genBlocksFull]
    have h1 : genBlocks ec g.key g.counter g.key.length
        = genBlocksFull ec g.key (g.key.length / 16) g.counter := by
      simp [genBlocks, hm]
    simp only [generatorRead, hseed, Nat.zero_min, h0]
    norm_num [h1, genBlocksFull_ctr]
  · set k := g.key.length / 16 with hk
    have hk1 : 1 ≤ k := by
      rcases hdvd with ⟨m, hmq⟩
      omega
    have hklt : k < 2 ^ 128 := by
      have := Nat.div_le_self g.key.length 16
      omega
    have hvlt : leVal g.counter < 2 ^ 128 := by
      have := leVal_lt g.counter hv
      rw [hctr] at this
      norm_num at this
      exact this
    rw [leVal_iterate_incr k g.counter hv hctr]
    intro hcontra
    have hdm := Nat.div_add_mod (leVal g.counter + k) (2 ^ 128)
    have hmlt := Nat.mod_lt (leVal g.counter + k) (show 0 < 2 ^ 128 by positivity)
    rw [hcontra] at hdm
    rcases Nat.eq_zero_or_pos ((leVal g.counter + k) / 2 ^ 128) with hq | hq
    · omega
    · have : 2 ^ 128 * 1 ≤ 2 ^ 128 * ((leVal g.counter + k) / 2 ^ 128) :=
        Nat.mul_le_mul_left _ hq
      omega

/-- Witness for C10 on a concrete seeded generator with a 32-byte key. -/
theorem generatorRead_zeroLen_witness :
    generatorRead ec0 gW 0 =
      (([], none),
       { gW with
         key := (genBlocksFull ec0 gW.key (gW.key.length / 16) gW.counter).1
         counter := incr^[gW.key.length / 16] gW.counter }) ∧
    leVal (incr^[gW.key.length / 16] gW.counter) ≠ leVal gW.counter :=
  generatorRead_zeroLen ec0 gW (by rfl) (by decide) (by decide)
    (by norm_num [gW]) (by rfl) (by decide)

/-! ## Reseed pool selection -/

/-- The number of pools the reseed loop visits: the count of consecutive
indices from `j` whose power-of-two mask divides `nr`, capped by `fuel`. -/
def inclCount (nr : Nat) : Nat → Nat → Nat
  | _, 0 => 0
  | j, fuel + 1 =>
    if nr % 2 ^ j = 0 then inclCount nr (j + 1) fuel + 1 else 0

theorem inclCount_le (nr : Nat) :
    ∀ (fuel j : Nat), inclCount nr j fuel ≤ fuel := by
  intro fuel
  induction fuel with
  | zero => intro j; simp [inclCount]
  | succ fuel ih =>
    intro j
    rw [inclCount]
    by_cases h : nr % 2 ^ j = 0 <;> simp [h]
    exact ih (j + 1)

theorem inclCount_lt_iff (nr : Nat) :
    ∀ (fuel j i : Nat), i < fuel →
      (i < inclCount nr j fuel ↔ nr % 2 ^ (j + i) = 0) := by
  intro fuel
  induction fuel with
  | zero => intro j i h; omega
  | succ fuel ih =>
    intro j i hfuel
    rw [inclCount]
    by_cases h : nr % 2 ^ j = 0
    · rw [if_pos h]
      cases i with
      | zero => simpa using h
      | succ i =>
        rw [Nat.succ_lt_succ_iff, ih (j + 1) i (by omega)]
        have : j + 1 + i = j + (i + 1) := by omega
        rw [this]
    · rw [if_neg h]
      constructor
      · omega
      · intro hc
        have hd : (2 : Nat) ^ j ∣ nr :=
          dvd_trans (pow_dvd_pow 2 (Nat.le_add_right j i))
            (Nat.dvd_of_mod_eq_zero hc)
        exact absurd (Nat.mod_eq_zero_of_dvd hd) h

theorem mask_step (j : Nat) : (2 ^ j - 1) <<< 1 ||| 1 = 2 ^ (j + 1) - 1 := by
  have h1 : (2 ^ j - 1) <<< 1 = 2 ^ 1 * (2 ^ j - 1) := by
    rw [Nat.shiftLeft_eq]
    ring
  have h2 : 2 ^ 1 * (2 ^ j - 1) + 1 = 2 ^ 1 * (2 ^ j - 1) ||| 1 :=
    Nat.mul_add_lt_is_or (by norm_num) _
  have h3 : 0 < 2 ^ j := Nat.pos_pow_of_pos j (by norm_num)
  have h4 : 2 ^ (j + 1) = 2 * 2 ^ j := by rw [Nat.pow_succ]; ring
  rw [h1, ← h2]
  omega

theorem reseedAux_spec (ctx : Ctx) (nr : Nat) :
    ∀ (ps : List Pool) (j : Nat),
      reseedAux ctx nr (2 ^ j - 1) ps =
        (((ps.take (inclCount nr j ps.length)).map
            fun p => ctx.h.digest p.data).flatten,
         List.replicate (inclCount nr j ps.length) ⟨[]⟩
           ++ ps.drop (inclCount nr j ps.length)) := by
  intro ps
  induction ps with
  | nil => intro j; simp [reseedAux, inclCount]
  | cons p ps ih =>
    intro j
    have hmask : nr &&& (2 ^ j - 1) = nr % 2 ^ j :=
      Nat.and_pow_two_sub_one_eq_mod nr j
    rw [reseedAux, hmask]
    by_cases h : nr % 2 ^ j = 0
    · rw [if_pos h, mask_step, ih (j + 1)]
      simp [List.length_cons, inclCount, h, List.replicate_succ]
    · rw [if_neg h]
      simp [List.length_cons, inclCount, h]

/-- C4: one `reseed` bumps `numReseed` by exactly one; writing `nr` for
the bumped value, the visited pools are exactly the prefix of pools `i`
with `2^i ∣ nr` (visited in increasing order, stopping at the first
excluded index); each visited pool contributes its digest to the seed
buffer, in order, and is reset; and the concatenated buffer reaches the
generator through a single `Write`. -/
theorem reseed_spec (ctx : Ctx) (a : Acc) (hlen : a.pools.length = 32) :
    ∃ k, k ≤ 32 ∧
      (∀ i, i < 32 → (i < k ↔ 2 ^ i ∣ (a.numReseed + 1))) ∧
      reseed ctx a =
        { numReseed := a.numReseed + 1
          nextPool := a.nextPool
          gen := (generatorWrite ctx.h a.gen
            (((a.pools.take k).map fun p => ctx.h.digest p.data).flatten)).2
          pools := List.replicate k ⟨[]⟩ ++ a.pools.drop k } := by
  refine ⟨inclCount (a.numReseed + 1) 0 32, ?_, fun i hi => ?_, ?_⟩
  · exact inclCount_le _ 32 0
  · rw [inclCount_lt_iff _ 32 0 i hi, Nat.zero_add]
    exact ⟨Nat.dvd_of_mod_eq_zero, Nat.mod_eq_zero_of_dvd⟩
  · have hr := reseedAux_spec ctx (a.numReseed + 1) a.pools 0
    have h00 : (2 : Nat) ^ 0 - 1 = 0 := by norm_num
    rw [h00, hlen] at hr
    rw [reseed, hr]

/-- Witness for C4 on a fresh accumulator with 32 empty pools. -/
theorem reseed_spec_witness :
    ∃ k, k ≤ 32 ∧
      (∀ i, i < 32 → (i < k ↔ 2 ^ i ∣ (acc0.numReseed + 1))) ∧
      reseed ctx0 acc0 =
        { numReseed := acc0.numReseed + 1
          nextPool := acc0.nextPool
          gen := (generatorWrite ctx0.h acc0.gen
            (((acc0.pools.take k).map fun p => ctx0.h.digest p.data).flatten)).2
          pools := List.replicate k ⟨[]⟩ ++ acc0.pools.drop k } :=
  reseed_spec ctx0 acc0 (by simp [acc0])

/-! ## NewFortuna: seed length check and seed distribution -/

theorem ceil_eq (a b : Nat) (hb : 0 < b) :
    (a + b - 1) / b = ceilDivSpec a b := by
  have h0 : b * (a / b) + a % b = a := Nat.div_add_mod a b
  have hmlt : a % b < b := Nat.mod_lt a hb
  have hsplit : a + b - 1 = b * (a / b) + (a % b + b - 1) := by omega
  rw [hsplit, Nat.mul_add_div hb]
  by_cases h : a % b = 0
  · rw [ceilDivSpec, if_pos h, h]
    have : (0 + b - 1) / b = 0 := Nat.div_eq_of_lt (by omega)
    omega
  · rw [ceilDivSpec, if_neg h]
    have hge : 1 ≤ (a % b + b - 1) / b := (Nat.one_le_div_iff hb).2 (by omega)
    have hlt : (a % b + b - 1) / b < 2 :=
      (Nat.div_lt_iff_lt_mul hb).2 (by omega)
    omega

theorem distribute_eq_claim :
    ∀ (k i : Nat) (rem : List Nat), i + k = 32 →
      distributeSeed rem (idxFrom i k) = claimDistribute rem i k := by
  intro k
  induction k with
  | zero => intro i rem _; rfl
  | succ k ih =>
    intro i rem h
    have hpos : 0 < numPools - i := by
      rw [numPools]; omega
    rw [idxFrom]
    simp only [distributeSeed, claimDistribute]
    rw [ceil_eq _ _ hpos]
    congr 1
    exact ih (i + 1) _ (by omega)

theorem distribute_join :
    ∀ (k i : Nat) (rem : List Nat), i + k = 32 → 1 ≤ k →
      ((distributeSeed rem (idxFrom i k)).map Prod.snd).flatten = rem := by
  intro k
  induction k with
  | zero => intro i rem _ h1; omega
  | succ k ih =>
    intro i rem h _
    rcases Nat.eq_zero_or_pos k with hk | hk
    · subst hk
      have hi : i = 31 := by omega
      subst hi
      simp [idxFrom, distributeSeed, numPools]
    · rw [idxFrom]
      simp only [distributeSeed, List.map_cons, List.flatten_cons]
      rw [ih (i + 1) _ (by omega) hk]
      exact List.take_append_drop _ rem

theorem distribute_fst :
    ∀ (idx rem : List Nat), (distributeSeed rem idx).map Prod.fst = idx := by
  intro idx
  induction idx with
  | nil => intro rem; rfl
  | cons i rest ih => intro rem; simp [distributeSeed, ih]

theorem pool0Block_eq (seed : List Nat) (h : 48 ≤ seed.length) :
    pool0Block seed = List.replicate 16 0 ++ seed.take 48 := by
  rw [pool0Block]
  congr 1
  have hlen : (seed.take 48).length = 48 := by
    rw [List.length_take]; omega
  rw [List.take_append_eq_append_take, hlen, Nat.sub_self, List.take_zero,
    List.append_nil, List.take_take]
  simp

/-- C1 counterexample: on the 128-byte seed 0,1,...,127 the events
`NewFortuna` submits are not the ones the claim describes — the code
advances past 80 seed bytes before distributing, not 64 (event 1 is
`(1, [80, 81])`, not `(1, [64, 65, 66])`). -/
theorem init_distribution_claim_false :
    newFortunaEvents (List.range 128) ≠ claimedInitEvents (List.range 128) := by
  decide

/-- C1 amended: after the pool0 event (16 zero bytes plus the first 48
seed bytes, source 0) the constructor advances past the first 80 bytes
(`minPoolSize + 16`; bytes 48..80 are discarded), and the bytes from 80
onward are distributed over pools 1..31 by the claim's ceiling rule:
the events equal the spec-worded construction started at byte 80, their
concatenated payloads recover every byte from 80 on, and the sources run
0,1,...,31 in order. -/
theorem init_distribution_amended (seed : List Nat) (h : 128 ≤ seed.length) :
    newFortunaEvents seed = claimedInitEventsA seed ∧
    ((newFortunaEvents seed).map Prod.snd).tail.flatten = seed.drop 80 ∧
    (newFortunaEvents seed).map Prod.fst = idxFrom 0 32 := by
  refine ⟨?_, ?_, ?_⟩
  · rw [newFortunaEvents, claimedInitEventsA, pool0Block_eq seed (by omega),
      show minPoolSize + 16 = 80 from rfl]
    congr 1
    exact distribute_eq_claim 31 1 _ (by norm_num)
  · rw [newFortunaEvents, show minPoolSize + 16 = 80 from rfl]
    simp only [List.map_cons, List.tail_cons]
    exact distribute_join 31 1 _ (by norm_num) (by norm_num)
  · rw [newFortunaEvents]
    simp only [List.map_cons]
    rw [distribute_fst]
    rfl

/-- Witness for the amended C1 on a concrete 128-byte seed. -/
theorem init_distribution_amended_witness :
    newFortunaEvents (List.replicate 128 0)
        = claimedInitEventsA (List.replicate 128 0) ∧
    ((newFortunaEvents (List.replicate 128 0)).map Prod.snd).tail.flatten
        = (List.replicate 128 (0 : Nat)).drop 80 ∧
    (newFortunaEvents (List.replicate 128 0)).map Prod.fst = idxFrom 0 32 :=
  init_distribution_amended (List.replicate 128 0) (by simp)

/-- C2 counterexample: a 64-byte seed satisfies the claim's "len ≥ 64"
success condition, yet `NewFortuna` rejects it with `seedTooShort`. -/
theorem newFortuna_len64_errors :
    NewFortuna ctx0 (List.replicate 64 0)
        = Except.error FortunaErr.seedTooShort ∧
    64 ≤ (List.replicate 64 (0 : Nat)).length := by
  exact ⟨rfl, by simp⟩

/-- C2 amended: `NewFortuna` succeeds exactly on seeds of length at least
`2 * minPoolSize = 128`, and fails with `seedTooShort` below 128. -/
theorem newFortuna_threshold (ctx : Ctx) (seed : List Nat) :
    (exceptOk (NewFortuna ctx seed) = true ↔ 128 ≤ seed.length) ∧
    (seed.length < 128 →
      NewFortuna ctx seed = Except.error FortunaErr.seedTooShort) := by
  have h2m : 2 * minPoolSize = 128 := by norm_num [minPoolSize]
  by_cases h : seed.length < 128
  · rw [NewFortuna, h2m, if_pos h]
    exact ⟨by simp [exceptOk]; omega, fun _ => rfl⟩
  · rw [NewFortuna, h2m, if_neg h]
    exact ⟨by simp [exceptOk]; omega, fun hc => absurd hc h⟩

/-- Witness for the amended C2 on either side of the 128-byte threshold. -/
theorem newFortuna_threshold_witness :
    exceptOk (NewFortuna ctx0 (List.replicate 200 0)) = true ∧
    NewFortuna ctx0 (List.replicate 100 0)
        = Except.error FortunaErr.seedTooShort :=
  ⟨(newFortuna_threshold ctx0 (List.replicate 200 0)).1.mpr (by simp),
   (newFortuna_threshold ctx0 (List.replicate 100 0)).2 (by simp)⟩

end Fortuna
